import Mathlib

/-!
Verification of the universal-url-codec library (src/index.ts).

JavaScript strings are modelled as lists of UTF-16 code units (`List Nat`,
each element below 0x10000).  The runtime primitives `encodeURIComponent` and
`decodeURIComponent` are modelled from the ECMA-262 Encode/Decode algorithms;
they are the only parts not literally present in the repository's sources.
All library functions (`encode`, `decode`, `encodeUrl`, `encodeQuery`,
`decodeQuery`) are translated from src/index.ts.
-/

namespace UrlCodec

/-- Alphabetic ASCII code unit, per the uriAlpha production of ECMA-262. -/
def isUriAlpha (c : Nat) : Bool := (65 ≤ c && c ≤ 90) || (97 ≤ c && c ≤ 122)

/-- Decimal digit ASCII code unit. -/
def isDigit (c : Nat) : Bool := 48 ≤ c && c ≤ 57

/-- The uriMark production of ECMA-262: - _ . ! ~ * ' ( ). -/
def isUriMark (c : Nat) : Bool :=
  ([45, 95, 46, 33, 126, 42, 39, 40, 41] : List Nat).contains c

/-- Code units left unescaped by `encodeURIComponent` (ECMA-262
uriUnescaped = uriAlpha | DecimalDigit | uriMark). -/
def uriUnescaped (c : Nat) : Bool := isUriAlpha c || isDigit c || isUriMark c

/-- Uppercase hexadecimal digit for a value below 16, as emitted by the
ECMA-262 Encode algorithm. -/
def hexDigit (n : Nat) : Nat := if n < 10 then 48 + n else 55 + n

/-- Value of an ASCII hexadecimal digit (both cases accepted by Decode). -/
def hexVal (c : Nat) : Option Nat :=
  if 48 ≤ c && c ≤ 57 then some (c - 48)
  else if 65 ≤ c && c ≤ 70 then some (c - 55)
  else if 97 ≤ c && c ≤ 102 then some (c - 87)
  else none

/-- Byte value of two hexadecimal digit code units. -/
def hex2 (a b : Nat) : Option Nat :=
  match hexVal a, hexVal b with
  | some x, some y => some (16 * x + y)
  | _, _ => none

/-- Percent-escape of one byte: the three code units %XY with uppercase hex. -/
def pctByte (b : Nat) : List Nat := [37, hexDigit (b / 16), hexDigit (b % 16)]

/-- UTF-8 byte sequence of a Unicode code point. -/
def utf8Bytes (cp : Nat) : List Nat :=
  if cp < 0x80 then [cp]
  else if cp < 0x800 then [0xC0 + cp / 64, 0x80 + cp % 64]
  else if cp < 0x10000 then
    [0xE0 + cp / 4096, 0x80 + (cp / 64) % 64, 0x80 + cp % 64]
  else
    [0xF0 + cp / 0x40000, 0x80 + (cp / 4096) % 64, 0x80 + (cp / 64) % 64,
     0x80 + cp % 64]

/-- Percent-escaped UTF-8 encoding of one code point. -/
def pctUtf8 (cp : Nat) : List Nat := (utf8Bytes cp).flatMap pctByte

/-- UTF-16 code units of a single code point (a surrogate pair above 0xFFFF). -/
def charUnits (cp : Nat) : List Nat :=
  if cp < 0x10000 then [cp]
  else [0xD800 + (cp - 0x10000) / 0x400, 0xDC00 + (cp - 0x10000) % 0x400]

/-- Model of the ECMA-262 Encode algorithm underlying `encodeURIComponent`,
over UTF-16 code units.  Returns `none` exactly when the algorithm throws a
URIError, i.e. on an unpaired surrogate. -/
def encodeURIComponentAux : List Nat → Option (List Nat)
  | [] => some []
  | c :: rest =>
    if uriUnescaped c then (encodeURIComponentAux rest).map (c :: ·)
    else if c < 0xD800 ∨ 0xDFFF < c then
      (encodeURIComponentAux rest).map (pctUtf8 c ++ ·)
    else if 0xDC00 ≤ c then none
    else
      match rest with
      | [] => none
      | c2 :: rest2 =>
        if 0xDC00 ≤ c2 ∧ c2 < 0xE000 then
          (encodeURIComponentAux rest2).map
            (pctUtf8 (0x10000 + (c - 0xD800) * 0x400 + (c2 - 0xDC00)) ++ ·)
        else none

/-- First phase of the ECMA-262 Decode algorithm underlying
`decodeURIComponent`: replace each %XY escape by the byte it denotes
(`Sum.inr`), keeping other code units literal (`Sum.inl`).  Returns `none`
when an escape is truncated or has non-hex digits, the cases in which the
algorithm throws a URIError while reading an escape. -/
def unpct : List Nat → Option (List (Sum Nat Nat))
  | [] => some []
  | c :: rest =>
    if c = 37 then
      match rest with
      | a :: b :: rest1 =>
        match hex2 a b with
        | some v => (unpct rest1).map (Sum.inr v :: ·)
        | none => none
      | _ => none
    else (unpct rest).map (Sum.inl c :: ·)

/-- Second phase of the ECMA-262 Decode algorithm: strict UTF-8 decoding of
maximal runs of escaped bytes, passing literal code units through.  The
state is (number of continuation bytes still expected, accumulator, overlong
threshold).  A byte sequence that is not the shortest-form UTF-8 encoding of
a non-surrogate code point up to 0x10FFFF yields `none` (URIError).  In
ECMA-262 continuation bytes are read only from immediately following
escapes, which is exactly a run of `Sum.inr` elements here. -/
def utf8Go : Nat → Nat → Nat → List (Sum Nat Nat) → Option (List Nat)
  | 0, _, _, [] => some []
  | _+1, _, _, [] => none
  | 0, _, _, Sum.inl c :: rest => (utf8Go 0 0 0 rest).map (c :: ·)
  | _+1, _, _, Sum.inl _ :: _ => none
  | 0, _, _, Sum.inr b :: rest =>
    if b < 0x80 then (utf8Go 0 0 0 rest).map (b :: ·)
    else if b < 0xC0 then none
    else if b < 0xE0 then utf8Go 1 (b - 0xC0) 0x80 rest
    else if b < 0xF0 then utf8Go 2 (b - 0xE0) 0x800 rest
    else if b < 0xF8 then utf8Go 3 (b - 0xF0) 0x10000 rest
    else none
  | need+1, acc, minv, Sum.inr b :: rest =>
    if 0x80 ≤ b ∧ b < 0xC0 then
      match need with
      | 0 =>
        if minv ≤ acc * 64 + (b - 0x80) ∧ acc * 64 + (b - 0x80) ≤ 0x10FFFF ∧
            (acc * 64 + (b - 0x80) < 0xD800 ∨ 0xDFFF < acc * 64 + (b - 0x80)) then
          (utf8Go 0 0 0 rest).map (charUnits (acc * 64 + (b - 0x80)) ++ ·)
        else none
      | need1+1 => utf8Go (need1+1) (acc * 64 + (b - 0x80)) minv rest
    else none

/-- Model of `decodeURIComponent` over UTF-16 code units: percent-unescaping
followed by strict UTF-8 decoding; `none` models a thrown URIError. -/
def decodeAux (s : List Nat) : Option (List Nat) :=
  (unpct s).bind (utf8Go 0 0 0)

/-- Single-character global replacement, the semantics of
`s.replace(/x/g, r)` for a one-character pattern. -/
def replaceChar (t : Nat) (r : List Nat) (s : List Nat) : List Nat :=
  s.flatMap (fun c => if c = t then r else [c])

/-- The five replacements applied by `encode` after `encodeURIComponent`
(lines 96-101 of src/index.ts, and likewise inside the strict branch):
! to %21, ' to %27, ( to %28, ) to %29, * to %2A, in source order. -/
def rfc3986Extra (s : List Nat) : List Nat :=
  replaceChar 42 [37, 50, 65] (replaceChar 41 [37, 50, 57]
    (replaceChar 40 [37, 50, 56] (replaceChar 39 [37, 50, 55]
      (replaceChar 33 [37, 50, 49] s))))

/-- Left-to-right non-overlapping replacement of the triplet %20 by +, the
semantics of `encoded.replace(/%20/g, '+')`. -/
def replacePct20Plus : List Nat → List Nat
  | 37 :: 50 :: 48 :: rest => 43 :: replacePct20Plus rest
  | c :: rest => c :: replacePct20Plus rest
  | [] => []

/-- Code points of a string as iterated by `Array.from` on a JS string:
surrogate pairs combine, unpaired surrogates stay as one-unit characters. -/
def arrayFromPoints : List Nat → List Nat
  | [] => []
  | c :: rest =>
    if 0xD800 ≤ c ∧ c < 0xDC00 then
      match rest with
      | c2 :: rest2 =>
        if 0xDC00 ≤ c2 ∧ c2 < 0xE000 then
          (0x10000 + (c - 0xD800) * 0x400 + (c2 - 0xDC00)) ::
            arrayFromPoints rest2
        else c :: arrayFromPoints (c2 :: rest2)
      | [] => [c]
    else c :: arrayFromPoints rest

/-- Options record of `encode` (EncodeOptions in src/index.ts), with
`allowedChars` a list of JS strings. -/
structure EncodeOptions where
  plusForSpace : Bool
  strict : Bool
  allowedChars : List (List Nat)
deriving DecidableEq

/-- Default encode options: plusForSpace false, strict false, allowedChars
empty, the defaults destructured on line 66 of src/index.ts. -/
def defEnc : EncodeOptions := ⟨false, false, []⟩

/-- Options record of `decode` (DecodeOptions in src/index.ts). -/
structure DecodeOptions where
  plusAsSpace : Bool
deriving DecidableEq

/-- Default decode options. -/
def defDec : DecodeOptions := ⟨false⟩

/-- Test `/[A-Za-z0-9\-_]/.test(char)` on a one-code-point string: true iff
some code unit of the character is alphanumeric, hyphen or underscore. -/
def isWordChar (c : Nat) : Bool := isUriAlpha c || isDigit c || c = 45 || c = 95

/-- Strict-branch treatment of one character of `Array.from(str)` in
`encode` (lines 74-89 of src/index.ts): pass the character through when the
character class matches or it is in allowedChars, otherwise
`encodeURIComponent` it and apply the five extra replacements. -/
def strictEncodeChar (allowed : List (List Nat)) (cp : Nat) : Option (List Nat) :=
  let ch := charUnits cp
  if ch.any isWordChar || allowed.contains ch then some ch
  else (encodeURIComponentAux ch).map rfc3986Extra

/-- The `encode` function of src/index.ts over a string argument.  `none`
models a thrown URIError (from `encodeURIComponent` on an unpaired
surrogate); the TypeError branch for non-string arguments is modelled
separately in `encodeJS`. -/
def encodeCore (str : List Nat) (o : EncodeOptions) : Option (List Nat) := do
  let encoded ← encodeURIComponentAux str
  let encoded ←
    if o.strict then
      ((arrayFromPoints str).mapM (strictEncodeChar o.allowedChars)).map
        List.flatten
    else
      pure (rfc3986Extra encoded)
  pure (if o.plusForSpace then replacePct20Plus encoded else encoded)

/-- The `decode` function of src/index.ts over a string argument.  The
try/catch makes it total: when `decodeURIComponent` fails the catch block
returns the original argument `str` (line 154), not the plus-substituted
intermediate. -/
def decodeCore (str : List Nat) (o : DecodeOptions) : List Nat :=
  let decoded := if o.plusAsSpace then replaceChar 43 [32] str else str
  match decodeAux decoded with
  | some d => d
  | none => str

/-- Well-formed UTF-16 string: every code unit below 0x10000 and every
surrogate part of a high-low pair. -/
def wfString : List Nat → Bool
  | [] => true
  | c :: rest =>
    if c < 0xD800 ∨ (0xE000 ≤ c ∧ c < 0x10000) then wfString rest
    else if 0xD800 ≤ c ∧ c < 0xDC00 then
      match rest with
      | c2 :: rest2 =>
        if 0xDC00 ≤ c2 ∧ c2 < 0xE000 then wfString rest2 else false
      | [] => false
    else false

/-- Characters that can appear in the output of default-mode `encode`:
alphanumerics, - _ . ~ and the percent sign (hex digits are alphanumeric). -/
def encOutChar (c : Nat) : Bool :=
  isUriAlpha c || isDigit c || ([45, 95, 46, 126, 37] : List Nat).contains c

theorem uriUnescaped_lt {c : Nat} (h : uriUnescaped c = true) : c < 0x80 := by
  simp [uriUnescaped, isUriAlpha, isDigit, isUriMark, List.contains_cons] at h
  omega

theorem hexVal_hexDigit (n : Nat) (h : n < 16) : hexVal (hexDigit n) = some n := by
  interval_cases n <;> decide

theorem hex2_hexDigits (b : Nat) (h : b < 256) :
    hex2 (hexDigit (b / 16)) (hexDigit (b % 16)) = some b := by
  have h1 := hexVal_hexDigit (b / 16) (by omega)
  have h2 := hexVal_hexDigit (b % 16) (by omega)
  simp [hex2, h1, h2]
  omega

theorem hexDigit_range (n : Nat) (h : n < 16) :
    (48 ≤ hexDigit n ∧ hexDigit n ≤ 57) ∨ (65 ≤ hexDigit n ∧ hexDigit n ≤ 70) := by
  simp [hexDigit]
  split <;> omega

theorem unpct_lit (c : Nat) (hc : ¬c = 37) (rest : List Nat) :
    unpct (c :: rest) = (unpct rest).map (Sum.inl c :: ·) := by
  rcases rest with _ | ⟨a, _ | ⟨b, r⟩⟩ <;> simp [unpct, hc]

theorem unpct_pctByte (b : Nat) (hb : b < 256) (rest : List Nat) :
    unpct (pctByte b ++ rest) = (unpct rest).map (Sum.inr b :: ·) := by
  simp [pctByte, unpct, hex2_hexDigits b hb]

theorem unpct_bytes (bs : List Nat) (hb : ∀ b ∈ bs, b < 256) (rest : List Nat) :
    unpct (bs.flatMap pctByte ++ rest) =
      (unpct rest).map (bs.map Sum.inr ++ ·) := by
  induction bs with
  | nil => simp
  | cons b bs ih =>
    simp only [List.flatMap_cons, List.append_assoc, List.map_cons]
    rw [unpct_pctByte b (hb b (by simp)), ih (fun x hx => hb x (by simp [hx]))]
    rcases unpct rest with _ | d <;> simp

theorem utf8Go_lit (c : Nat) (rest : List (Sum Nat Nat)) :
    utf8Go 0 0 0 (Sum.inl c :: rest) = (utf8Go 0 0 0 rest).map (c :: ·) := by
  simp [utf8Go]

theorem utf8Bytes_lt_256 (cp : Nat) (h : cp ≤ 0x10FFFF) :
    ∀ b ∈ utf8Bytes cp, b < 256 := by
  intro b hb
  unfold utf8Bytes at hb
  split at hb
  · simp at hb; omega
  · split at hb
    · simp at hb; rcases hb with h1 | h1 <;> omega
    · split at hb
      · simp at hb; rcases hb with h1 | h1 | h1 <;> omega
      · simp at hb; rcases hb with h1 | h1 | h1 | h1 <;> omega

theorem utf8Go_point (cp : Nat) (h1 : cp ≤ 0x10FFFF)
    (h2 : cp < 0xD800 ∨ 0xDFFF < cp) (rest : List (Sum Nat Nat)) :
    utf8Go 0 0 0 ((utf8Bytes cp).map Sum.inr ++ rest) =
      (utf8Go 0 0 0 rest).map (charUnits cp ++ ·) := by
  by_cases hc1 : cp < 0x80
  · have e : utf8Bytes cp = [cp] := by unfold utf8Bytes; rw [if_pos hc1]
    have ec : charUnits cp = [cp] := by unfold charUnits; rw [if_pos (by omega)]
    rw [e, ec]
    simp only [List.map_cons, List.map_nil, List.cons_append, List.nil_append]
    simp only [utf8Go]
    rw [if_pos hc1]
  · by_cases hc2 : cp < 0x800
    · have e : utf8Bytes cp = [0xC0 + cp / 64, 0x80 + cp % 64] := by
        unfold utf8Bytes; rw [if_neg (by omega), if_pos (by omega)]
      have ec : charUnits cp = [cp] := by unfold charUnits; rw [if_pos (by omega)]
      rw [e, ec]
      simp only [List.map_cons, List.map_nil, List.cons_append, List.nil_append]
      simp only [utf8Go]
      rw [if_neg (by omega), if_neg (by omega), if_pos (by omega),
        if_pos (by omega)]
      rw [if_pos (by omega)]
      have hv : (0xC0 + cp / 64 - 0xC0) * 64 + (0x80 + cp % 64 - 0x80) = cp := by
        omega
      rw [hv]
      rcases utf8Go 0 0 0 rest with _ | d <;> simp [charUnits, if_pos (by omega : cp < 0x10000)]
    · by_cases hc3 : cp < 0x10000
      · have e : utf8Bytes cp =
            [0xE0 + cp / 4096, 0x80 + (cp / 64) % 64, 0x80 + cp % 64] := by
          unfold utf8Bytes; rw [if_neg (by omega), if_neg (by omega), if_pos (by omega)]
        have ec : charUnits cp = [cp] := by unfold charUnits; rw [if_pos (by omega)]
        rw [e, ec]
        simp only [List.map_cons, List.map_nil, List.cons_append, List.nil_append]
        simp only [utf8Go]
        rw [if_neg (by omega), if_neg (by omega), if_neg (by omega),
          if_pos (by omega), if_pos (by omega)]
        rw [if_pos (by omega)]
        have hv : ((0xE0 + cp / 4096 - 0xE0) * 64 + (0x80 + (cp / 64) % 64 - 0x80)) * 64 +
            (0x80 + cp % 64 - 0x80) = cp := by omega
        rw [if_pos (by omega)]
        rw [hv]
        rcases utf8Go 0 0 0 rest with _ | d <;>
          simp [charUnits, if_pos (by omega : cp < 0x10000)]
      · have e : utf8Bytes cp = [0xF0 + cp / 0x40000, 0x80 + (cp / 4096) % 64,
            0x80 + (cp / 64) % 64, 0x80 + cp % 64] := by
          unfold utf8Bytes
          rw [if_neg (by omega), if_neg (by omega), if_neg (by omega)]
        rw [e]
        simp only [List.map_cons, List.map_nil, List.cons_append, List.nil_append]
        simp only [utf8Go]
        rw [if_neg (by omega), if_neg (by omega), if_neg (by omega),
          if_neg (by omega), if_pos (by omega), if_pos (by omega),
          if_pos (by omega)]
        rw [if_pos (by omega)]
        have hv : (((0xF0 + cp / 0x40000 - 0xF0) * 64 + (0x80 + (cp / 4096) % 64 - 0x80)) * 64 +
            (0x80 + (cp / 64) % 64 - 0x80)) * 64 + (0x80 + cp % 64 - 0x80) = cp := by omega
        rw [if_pos (by omega), hv]

theorem decodeAux_nil : decodeAux [] = some [] := by simp [decodeAux, unpct, utf8Go]

theorem decodeAux_lit (c : Nat) (hc : ¬c = 37) (rest : List Nat) :
    decodeAux (c :: rest) = (decodeAux rest).map (c :: ·) := by
  unfold decodeAux
  rw [unpct_lit c hc]
  rcases hr : unpct rest with _ | d <;> simp [utf8Go_lit, hr]

theorem decodeAux_point (cp : Nat) (h1 : cp ≤ 0x10FFFF)
    (h2 : cp < 0xD800 ∨ 0xDFFF < cp) (rest : List Nat) :
    decodeAux (pctUtf8 cp ++ rest) = (decodeAux rest).map (charUnits cp ++ ·) := by
  unfold decodeAux pctUtf8
  rw [unpct_bytes (utf8Bytes cp) (utf8Bytes_lt_256 cp h1)]
  rcases hr : unpct rest with _ | d <;> simp [utf8Go_point cp h1 h2, hr]

theorem uriUnescaped_false {c : Nat} (h : 0x80 ≤ c) : uriUnescaped c = false := by
  cases hu : uriUnescaped c with
  | false => rfl
  | true => exact absurd (uriUnescaped_lt hu) (by omega)

theorem encAux_safe {c : Nat} (hu : uriUnescaped c = true) (rest : List Nat) :
    encodeURIComponentAux (c :: rest) =
      (encodeURIComponentAux rest).map (c :: ·) := by
  rcases rest with _ | ⟨c2, r⟩ <;> simp [encodeURIComponentAux, hu]

theorem encAux_bmp {c : Nat} (hu : uriUnescaped c = false)
    (h : c < 0xD800 ∨ 0xDFFF < c) (rest : List Nat) :
    encodeURIComponentAux (c :: rest) =
      (encodeURIComponentAux rest).map (pctUtf8 c ++ ·) := by
  rcases rest with _ | ⟨c2, r⟩ <;> simp [encodeURIComponentAux, hu, h]

theorem encAux_pair {c c2 : Nat} (hc : 0xD800 ≤ c ∧ c < 0xDC00)
    (ht : 0xDC00 ≤ c2 ∧ c2 < 0xE000) (rest2 : List Nat) :
    encodeURIComponentAux (c :: c2 :: rest2) =
      (encodeURIComponentAux rest2).map
        (pctUtf8 (0x10000 + (c - 0xD800) * 0x400 + (c2 - 0xDC00)) ++ ·) := by
  have hu : uriUnescaped c = false := uriUnescaped_false (by omega)
  simp only [encodeURIComponentAux]
  rw [if_neg (by simp [hu]), if_neg (by omega), if_neg (by omega), if_pos ht]

theorem replaceChar_append (t : Nat) (r s1 s2 : List Nat) :
    replaceChar t r (s1 ++ s2) = replaceChar t r s1 ++ replaceChar t r s2 := by
  simp [replaceChar]

theorem rfc3986Extra_append (s1 s2 : List Nat) :
    rfc3986Extra (s1 ++ s2) = rfc3986Extra s1 ++ rfc3986Extra s2 := by
  simp [rfc3986Extra, replaceChar_append]

/-- Effect of the five extra replacements on a single character. -/
def extraChar (c : Nat) : List Nat :=
  if c = 33 ∨ c = 39 ∨ c = 40 ∨ c = 41 ∨ c = 42 then pctByte c else [c]

theorem rfc3986Extra_cons (c : Nat) (s : List Nat) :
    rfc3986Extra (c :: s) = extraChar c ++ rfc3986Extra s := by
  by_cases h1 : c = 33
  · subst h1; simp [rfc3986Extra, replaceChar, extraChar, pctByte, hexDigit]
  · by_cases h2 : c = 39
    · subst h2; simp [rfc3986Extra, replaceChar, extraChar, pctByte, hexDigit]
    · by_cases h3 : c = 40
      · subst h3; simp [rfc3986Extra, replaceChar, extraChar, pctByte, hexDigit]
      · by_cases h4 : c = 41
        · subst h4; simp [rfc3986Extra, replaceChar, extraChar, pctByte, hexDigit]
        · by_cases h5 : c = 42
          · subst h5; simp [rfc3986Extra, replaceChar, extraChar, pctByte, hexDigit]
          · simp [rfc3986Extra, replaceChar, extraChar, h1, h2, h3, h4, h5]

theorem replaceChar_nomem (t : Nat) (r s : List Nat) (h : ∀ c ∈ s, ¬c = t) :
    replaceChar t r s = s := by
  induction s with
  | nil => simp [replaceChar]
  | cons c s ih =>
    simp only [replaceChar, List.flatMap_cons] at ih ⊢
    rw [if_neg (h c (by simp)), ih (fun x hx => h x (by simp [hx]))]
    rfl

theorem rfc3986Extra_id (s : List Nat)
    (h : ∀ c ∈ s, ¬c = 33 ∧ ¬c = 39 ∧ ¬c = 40 ∧ ¬c = 41 ∧ ¬c = 42) :
    rfc3986Extra s = s := by
  unfold rfc3986Extra
  rw [replaceChar_nomem 33 _ s (fun c hc => (h c hc).1),
    replaceChar_nomem 39 _ s (fun c hc => (h c hc).2.1),
    replaceChar_nomem 40 _ s (fun c hc => (h c hc).2.2.1),
    replaceChar_nomem 41 _ s (fun c hc => (h c hc).2.2.2.1),
    replaceChar_nomem 42 _ s (fun c hc => (h c hc).2.2.2.2)]

theorem pctByte_chars (b : Nat) (hb : b < 256) :
    ∀ x ∈ pctByte b, x = 37 ∨ (48 ≤ x ∧ x ≤ 57) ∨ (65 ≤ x ∧ x ≤ 70) := by
  intro x hx
  have r1 := hexDigit_range (b / 16) (by omega)
  have r2 := hexDigit_range (b % 16) (by omega)
  simp [pctByte] at hx
  rcases hx with h | h | h <;> omega

theorem pctUtf8_chars (cp : Nat) (h : cp ≤ 0x10FFFF) :
    ∀ x ∈ pctUtf8 cp, x = 37 ∨ (48 ≤ x ∧ x ≤ 57) ∨ (65 ≤ x ∧ x ≤ 70) := by
  intro x hx
  simp only [pctUtf8, List.mem_flatMap] at hx
  obtain ⟨b, hb, hxb⟩ := hx
  exact pctByte_chars b (utf8Bytes_lt_256 cp h b hb) x hxb

theorem rfc3986Extra_pctUtf8 (cp : Nat) (h : cp ≤ 0x10FFFF) :
    rfc3986Extra (pctUtf8 cp) = pctUtf8 cp := by
  refine rfc3986Extra_id _ (fun c hc => ?_)
  have := pctUtf8_chars cp h c hc
  omega

theorem pctUtf8_encOut (cp : Nat) (h : cp ≤ 0x10FFFF) :
    ∀ x ∈ pctUtf8 cp, encOutChar x = true := by
  intro x hx
  have := pctUtf8_chars cp h x hx
  simp [encOutChar, isUriAlpha, isDigit, List.contains_cons]
  omega

theorem extraChar_encOut (c : Nat) (hu : uriUnescaped c = true) :
    ∀ x ∈ extraChar c, encOutChar x = true := by
  intro x hx
  by_cases h5 : c = 33 ∨ c = 39 ∨ c = 40 ∨ c = 41 ∨ c = 42
  · rw [extraChar, if_pos h5] at hx
    have := pctByte_chars c (by omega) x hx
    simp [encOutChar, isUriAlpha, isDigit, List.contains_cons]
    omega
  · rw [extraChar, if_neg h5] at hx
    simp at hx
    subst hx
    simp [uriUnescaped, isUriAlpha, isDigit, isUriMark, List.contains_cons] at hu
    simp [encOutChar, isUriAlpha, isDigit, List.contains_cons]
    omega

theorem decodeAux_extraChar (c : Nat) (hu : uriUnescaped c = true)
    (rest : List Nat) :
    decodeAux (extraChar c ++ rest) = (decodeAux rest).map (c :: ·) := by
  have hlt := uriUnescaped_lt hu
  by_cases h5 : c = 33 ∨ c = 39 ∨ c = 40 ∨ c = 41 ∨ c = 42
  · rw [extraChar, if_pos h5]
    have e : pctUtf8 c = pctByte c := by
      unfold pctUtf8 utf8Bytes
      rw [if_pos (by omega)]
      simp
    have := decodeAux_point c (by omega) (by omega) rest
    rw [e] at this
    rw [this]
    have ec : charUnits c = [c] := by unfold charUnits; rw [if_pos (by omega)]
    rw [ec]
    rcases decodeAux rest with _ | d <;> simp
  · rw [extraChar, if_neg h5]
    have hc37 : ¬c = 37 := by
      simp [uriUnescaped, isUriAlpha, isDigit, isUriMark, List.contains_cons] at hu
      omega
    simpa using decodeAux_lit c hc37 rest

theorem wfString_cons_bmp {c : Nat} (h : c < 0xD800 ∨ (0xE000 ≤ c ∧ c < 0x10000))
    (rest : List Nat) : wfString (c :: rest) = wfString rest := by
  rcases rest with _ | ⟨c2, r⟩ <;> simp [wfString, h]

theorem wfString_pair {c c2 : Nat} (hn1 : ¬(c < 0xD800 ∨ (0xE000 ≤ c ∧ c < 0x10000)))
    (hlead : 0xD800 ≤ c ∧ c < 0xDC00) (rest2 : List Nat) :
    wfString (c :: c2 :: rest2) =
      if 0xDC00 ≤ c2 ∧ c2 < 0xE000 then wfString rest2 else false := by
  simp [wfString, hn1, hlead]

theorem wfString_single {c : Nat} (hn1 : ¬(c < 0xD800 ∨ (0xE000 ≤ c ∧ c < 0x10000)))
    (hlead : 0xD800 ≤ c ∧ c < 0xDC00) : wfString [c] = false := by
  simp [wfString, hn1, hlead]

theorem wfString_bad {c : Nat} (hn1 : ¬(c < 0xD800 ∨ (0xE000 ≤ c ∧ c < 0x10000)))
    (hn2 : ¬(0xD800 ≤ c ∧ c < 0xDC00)) (rest : List Nat) :
    wfString (c :: rest) = false := by
  rcases rest with _ | ⟨c2, r⟩ <;> simp [wfString, hn1, hn2]

/-- Round trip at the level of the runtime primitives: on a well-formed
UTF-16 string, `encodeURIComponent` succeeds, the five extra replacements
followed by `decodeURIComponent` restore the input, and every output
character is in the default output alphabet. -/
theorem roundtripAux : ∀ t : List Nat, wfString t = true →
    ∃ e, encodeURIComponentAux t = some e ∧
      decodeAux (rfc3986Extra e) = some t ∧
      ∀ c ∈ rfc3986Extra e, encOutChar c = true := by
  intro t
  induction t using wfString.induct with
  | case1 =>
    intro _
    refine ⟨[], by simp [encodeURIComponentAux], ?_, ?_⟩ <;>
      simp [rfc3986Extra, replaceChar, decodeAux_nil]
  | case2 c rest hbmp ih =>
    intro hwf
    rw [wfString_cons_bmp hbmp] at hwf
    obtain ⟨e, he, hd, ho⟩ := ih hwf
    cases hu : uriUnescaped c with
    | true =>
      refine ⟨c :: e, ?_, ?_, ?_⟩
      · rw [encAux_safe hu, he]; rfl
      · rw [rfc3986Extra_cons, decodeAux_extraChar c hu, hd]; rfl
      · intro x hx
        rw [rfc3986Extra_cons] at hx
        rcases List.mem_append.mp hx with h | h
        · exact extraChar_encOut c hu x h
        · exact ho x h
    | false =>
      refine ⟨pctUtf8 c ++ e, ?_, ?_, ?_⟩
      · rw [encAux_bmp hu (by omega), he]; rfl
      · rw [rfc3986Extra_append, rfc3986Extra_pctUtf8 c (by omega),
          decodeAux_point c (by omega) (by omega), hd]
        have ec : charUnits c = [c] := by unfold charUnits; rw [if_pos (by omega)]
        rw [ec]
        rfl
      · intro x hx
        rw [rfc3986Extra_append, rfc3986Extra_pctUtf8 c (by omega)] at hx
        rcases List.mem_append.mp hx with h | h
        · exact pctUtf8_encOut c (by omega) x h
        · exact ho x h
  | case3 c hn1 hlead c2 rest2 htrail ih =>
    intro hwf
    rw [wfString_pair hn1 hlead, if_pos htrail] at hwf
    obtain ⟨e, he, hd, ho⟩ := ih hwf
    have hcp1 : 0x10000 + (c - 0xD800) * 0x400 + (c2 - 0xDC00) ≤ 0x10FFFF := by omega
    have hcp2 : 0x10000 + (c - 0xD800) * 0x400 + (c2 - 0xDC00) < 0xD800 ∨
        0xDFFF < 0x10000 + (c - 0xD800) * 0x400 + (c2 - 0xDC00) := by omega
    refine ⟨pctUtf8 (0x10000 + (c - 0xD800) * 0x400 + (c2 - 0xDC00)) ++ e, ?_, ?_, ?_⟩
    · rw [encAux_pair hlead htrail, he]; rfl
    · rw [rfc3986Extra_append, rfc3986Extra_pctUtf8 _ hcp1,
        decodeAux_point _ hcp1 hcp2, hd]
      have ec : charUnits (0x10000 + (c - 0xD800) * 0x400 + (c2 - 0xDC00)) =
          [c, c2] := by
        unfold charUnits
        rw [if_neg (by omega)]
        have e1 : 0x10000 + (c - 0xD800) * 0x400 + (c2 - 0xDC00) - 0x10000 =
            (c - 0xD800) * 0x400 + (c2 - 0xDC00) := by omega
        rw [e1]
        have e2 : ((c - 0xD800) * 0x400 + (c2 - 0xDC00)) / 0x400 = c - 0xD800 := by
          omega
        have e3 : ((c - 0xD800) * 0x400 + (c2 - 0xDC00)) % 0x400 = c2 - 0xDC00 := by
          omega
        rw [e2, e3]
        have e4 : 0xD800 + (c - 0xD800) = c := by omega
        have e5 : 0xDC00 + (c2 - 0xDC00) = c2 := by omega
        rw [e4, e5]
      rw [ec]
      rfl
    · intro x hx
      rw [rfc3986Extra_append, rfc3986Extra_pctUtf8 _ hcp1] at hx
      rcases List.mem_append.mp hx with h | h
      · exact pctUtf8_encOut _ hcp1 x h
      · exact ho x h
  | case4 c hn1 hlead c2 rest2 hnt =>
    intro hwf
    rw [wfString_pair hn1 hlead, if_neg hnt] at hwf
    exact absurd hwf (by simp)
  | case5 c hn1 hlead =>
    intro hwf
    rw [wfString_single hn1 hlead] at hwf
    exact absurd hwf (by simp)
  | case6 c rest hn1 hn2 =>
    intro hwf
    rw [wfString_bad hn1 hn2] at hwf
    exact absurd hwf (by simp)

/-- UTF-16 code units of a Lean string literal, used to write concrete JS
strings. -/
def utf16 (s : String) : List Nat := s.toList.flatMap (fun c => charUnits c.toNat)

theorem encodeCore_default (t : List Nat) :
    encodeCore t defEnc = (encodeURIComponentAux t).map rfc3986Extra := by
  rcases h : encodeURIComponentAux t with _ | e <;> simp [encodeCore, defEnc, h]

theorem decodeCore_some {s d : List Nat} (h : decodeAux s = some d) :
    decodeCore s defDec = d := by
  simp [decodeCore, defDec, h]

/-- Round trip of the library functions under default options, together with
the output-alphabet fact used for query strings. -/
theorem encode_decode_roundtrip (t : List Nat) (h : wfString t = true) :
    ∃ e, encodeCore t defEnc = some e ∧ decodeCore e defDec = t ∧
      decodeAux e = some t ∧ ∀ c ∈ e, encOutChar c = true := by
  obtain ⟨e, he, hd, ho⟩ := roundtripAux t h
  refine ⟨rfc3986Extra e, ?_, decodeCore_some hd, hd, ho⟩
  rw [encodeCore_default, he]
  rfl

/-- C1: decoding the encoding under default options is the identity on
well-formed Unicode text. -/
theorem claim_C1 (t : List Nat) (h : wfString t = true) :
    ∃ e, encodeCore t defEnc = some e ∧ decodeCore e defDec = t := by
  obtain ⟨e, he, hd, _, _⟩ := encode_decode_roundtrip t h
  exact ⟨e, he, hd⟩

/-- Witness for C1 at a concrete input mixing ASCII, a reserved character,
a BMP code point and an astral code point. -/
theorem claim_C1_witness :
    ∃ e, encodeCore (utf16 "a Ω🎉!") defEnc = some e ∧
      decodeCore e defDec = utf16 "a Ω🎉!" :=
  claim_C1 (utf16 "a Ω🎉!") (by decide)

/-- C2 (code bug): in strict mode the characters . and ~ pass through
unencoded, because `encodeURIComponent` leaves them alone and only
! ' ( ) * are patched afterwards; the README and examples document
strict-mode output as containing only A-Z a-z 0-9 - _ %. -/
theorem claim_C2 :
    encodeCore (utf16 "Hello.World!") ⟨false, true, []⟩ =
      some (utf16 "Hello.World%21") ∧
    encodeCore (utf16 ".") ⟨false, true, []⟩ = some (utf16 ".") ∧
    encodeCore (utf16 "~") ⟨false, true, []⟩ = some (utf16 "~") := by
  decide

/-- C3 (code bug): `allowedChars` is consulted only in the strict branch of
`encode`; under default (non-strict) options the result is identical for
every allowedChars list, so a character in allowedChars is still
percent-encoded, contradicting the option's documentation. -/
theorem claim_C3 :
    (∀ (s : List Nat) (p : Bool) (A : List (List Nat)),
      encodeCore s ⟨p, false, A⟩ = encodeCore s ⟨p, false, []⟩) ∧
    encodeCore (utf16 "@") ⟨false, false, [utf16 "@"]⟩ = some (utf16 "%40") :=
  ⟨fun _ _ _ => rfl, by decide⟩

/-- C4 counterexample: with plusAsSpace set and a malformed escape, `decode`
returns the raw original input, not the plus-substituted string the claim
describes.  Here the plus-substituted form of +%2 is ` %2` (a space), the
substituted string fails to decode, and the function returns +%2. -/
theorem claim_C4_counterexample :
    decodeAux (replaceChar 43 [32] (utf16 "+%2")) = none ∧
    decodeCore (utf16 "+%2") ⟨true⟩ = utf16 "+%2" ∧
    ¬decodeCore (utf16 "+%2") ⟨true⟩ = utf16 " %2" := by
  decide

/-- C4 as amended: when percent-unescaping of the (possibly
plus-substituted) string fails, `decode` returns the original argument
unchanged, before plus substitution. -/
theorem claim_C4 (s : List Nat) (o : DecodeOptions)
    (h : decodeAux (if o.plusAsSpace then replaceChar 43 [32] s else s) = none) :
    decodeCore s o = s := by
  simp only [decodeCore]
  rw [h]

/-- Witness for C4 at the spec's own example, a truncated escape. -/
theorem claim_C4_witness :
    decodeAux (if defDec.plusAsSpace then replaceChar 43 [32] (utf16 "Hello%2")
      else utf16 "Hello%2") = none ∧
    decodeCore (utf16 "Hello%2") defDec = utf16 "Hello%2" :=
  ⟨by decide, claim_C4 (utf16 "Hello%2") defDec (by decide)⟩

/-- JavaScript values at the library boundary, for the typeof checks. -/
inductive JsValue where
  | str (s : List Nat)
  | num (n : Int)
  | boolean (b : Bool)
  | nullV
  | undefinedV
deriving DecidableEq

/-- Errors the library can raise: the TypeError thrown on non-string
arguments, and the URIError of `encodeURIComponent`. -/
inductive JsErr where
  | typeError
  | uriError
deriving DecidableEq

/-- String conversion `String(value)` for the value types accepted by
`encodeQuery`. -/
def jsToString : JsValue → List Nat
  | JsValue.str s => s
  | JsValue.num n => utf16 (toString n)
  | JsValue.boolean true => utf16 "true"
  | JsValue.boolean false => utf16 "false"
  | JsValue.nullV => utf16 "null"
  | JsValue.undefinedV => utf16 "undefined"

/-- The `encode` function including its typeof guard (lines 62-64). -/
def encodeJS (v : JsValue) (o : EncodeOptions) : Except JsErr (List Nat) :=
  match v with
  | JsValue.str s =>
    match encodeCore s o with
    | some e => Except.ok e
    | none => Except.error JsErr.uriError
  | _ => Except.error JsErr.typeError

/-- The `decode` function including its typeof guard (lines 132-134). -/
def decodeJS (v : JsValue) (o : DecodeOptions) : Except JsErr (List Nat) :=
  match v with
  | JsValue.str s => Except.ok (decodeCore s o)
  | _ => Except.error JsErr.typeError

/-- JS `String.prototype.split` on a one-character separator: every
occurrence separates, empty fields are kept, and the empty string splits to
one empty field. -/
def jsSplit (sep : Nat) : List Nat → List (List Nat)
  | [] => [[]]
  | c :: rest =>
    if c = sep then [] :: jsSplit sep rest
    else
      match jsSplit sep rest with
      | h :: tl => (c :: h) :: tl
      | [] => [[c]]

/-- The key __proto__ as a code-unit list. -/
def protoKey : List Nat := utf16 "__proto__"

/-- Property assignment `result[key] = value` on a plain object whose
prototype is Object.prototype, modelled from ECMAScript ordinary object
semantics: an own property is created (at the end) or updated in place,
except that assigning the key __proto__ invokes the inherited
Object.prototype accessor, which for a string value does nothing, so no own
entry appears. -/
def jsSetProp (m : List (List Nat × List Nat)) (k v : List Nat) :
    List (List Nat × List Nat) :=
  if k = protoKey then m
  else if m.any (fun p => p.1 == k) then
    m.map (fun p => if p.1 == k then (p.1, v) else p)
  else m ++ [(k, v)]

/-- Body of the per-pair loop of `decodeQuery` (lines 262-267): split the
pair on every `=`, decode the first field as key and the second (or the
empty string) as value, and assign into the result object. -/
def decodePairStep (o : DecodeOptions) (result : List (List Nat × List Nat))
    (pair : List Nat) : List (List Nat × List Nat) :=
  let fields := jsSplit 61 pair
  jsSetProp result (decodeCore (fields.headD []) o)
    (decodeCore ((fields.drop 1).headD []) o)

/-- The part of `decodeQuery` after the leading `?` has been stripped:
empty input gives the empty object, otherwise split on `&` and fold the
pairs into a fresh object. -/
def decodeQueryClean (cleanQuery : List Nat) (o : DecodeOptions) :
    List (List Nat × List Nat) :=
  if cleanQuery = [] then []
  else (jsSplit 38 cleanQuery).foldl (decodePairStep o) []

/-- The `decodeQuery` function of src/index.ts (lines 247-270), with the
result object modelled as its list of own entries in insertion order. -/
def decodeQuery (queryString : List Nat) (o : DecodeOptions) :
    List (List Nat × List Nat) :=
  decodeQueryClean
    (if queryString.head? = some 63 then queryString.tail else queryString) o

/-- JS `Array.prototype.join` with a one-character separator. -/
def joinSep (sep : Nat) : List (List Nat) → List Nat
  | [] => []
  | [p] => p
  | p :: ps => p ++ sep :: joinSep sep ps

/-- Encoding of one entry of the object passed to `encodeQuery`:
`encode(String(key), options) + '=' + encode(String(value), options)`. -/
def encodePair (o : EncodeOptions) (kv : List Nat × JsValue) :
    Option (List Nat) := do
  let ek ← encodeCore kv.1 o
  let ev ← encodeCore (jsToString kv.2) o
  pure (ek ++ 61 :: ev)

/-- The `encodeQuery` function of src/index.ts (lines 221-232), over the
entries list of the argument object; `none` models a URIError escaping from
`encode`. -/
def encodeQuery (params : List (List Nat × JsValue)) (o : EncodeOptions) :
    Option (List Nat) :=
  (params.mapM (encodePair o)).map (joinSep 38)

theorem unpct_nopct (s : List Nat) (h : ∀ c ∈ s, ¬c = 37) :
    unpct s = some (s.map Sum.inl) := by
  induction s with
  | nil => simp [unpct]
  | cons c rest ih =>
    rw [unpct_lit c (h c (by simp)), ih (fun x hx => h x (by simp [hx]))]
    rfl

theorem utf8Go_inl_all (s : List Nat) :
    utf8Go 0 0 0 (s.map Sum.inl) = some s := by
  induction s with
  | nil => simp [utf8Go]
  | cons c rest ih => rw [List.map_cons, utf8Go_lit, ih]; rfl

theorem decodeAux_nopct (s : List Nat) (h : ∀ c ∈ s, ¬c = 37) :
    decodeAux s = some s := by
  rw [decodeAux, unpct_nopct s h]
  simpa using utf8Go_inl_all s

theorem decodeCore_nopct (s : List Nat) (h : ∀ c ∈ s, ¬c = 37) :
    decodeCore s defDec = s :=
  decodeCore_some (decodeAux_nopct s h)

theorem jsSplit_nosep (sep : Nat) (a : List Nat) (h : ∀ c ∈ a, ¬c = sep) :
    jsSplit sep a = [a] := by
  induction a with
  | nil => simp [jsSplit]
  | cons c rest ih =>
    rw [jsSplit, if_neg (h c (by simp)), ih (fun x hx => h x (by simp [hx]))]

theorem jsSplit_left (sep : Nat) (a b : List Nat) (h : ∀ c ∈ a, ¬c = sep) :
    jsSplit sep (a ++ sep :: b) = a :: jsSplit sep b := by
  induction a with
  | nil =>
    simp only [List.nil_append]
    rw [jsSplit, if_pos rfl]
  | cons c rest ih =>
    simp only [List.cons_append]
    rw [jsSplit, if_neg (h c (by simp)), ih (fun x hx => h x (by simp [hx]))]

theorem jsSplit_joinSep (sep : Nat) (ps : List (List Nat)) (hne : ¬ps = [])
    (h : ∀ p ∈ ps, ∀ c ∈ p, ¬c = sep) :
    jsSplit sep (joinSep sep ps) = ps := by
  induction ps with
  | nil => exact absurd rfl hne
  | cons p ps ih =>
    rcases ps with _ | ⟨p2, ps2⟩
    · exact jsSplit_nosep sep p (h p (by simp))
    · rw [joinSep, jsSplit_left sep p _ (h p (by simp)),
        ih (List.cons_ne_nil p2 ps2) (fun x hx => h x (by simp [hx]))]
      exact List.cons_ne_nil p2 ps2

theorem encOutChar_facts {c : Nat} (h : encOutChar c = true) :
    ¬c = 38 ∧ ¬c = 61 ∧ ¬c = 63 ∧ ¬c = 43 := by
  simp [encOutChar, isUriAlpha, isDigit, List.contains_cons] at h
  omega

theorem decodeQuery_eq_fold (q : List Nat) (o : DecodeOptions)
    (h63 : ¬q.head? = some 63) (hne : ¬q = []) :
    decodeQuery q o = (jsSplit 38 q).foldl (decodePairStep o) [] := by
  rw [decodeQuery, if_neg h63, decodeQueryClean, if_neg hne]

theorem decodeQuery_strip (x : List Nat) (o : DecodeOptions) (hne : ¬x = []) :
    decodeQuery (63 :: x) o = (jsSplit 38 x).foldl (decodePairStep o) [] := by
  rw [decodeQuery]
  simp only [List.head?_cons, if_true, List.tail_cons, eq_self_iff_true]
  rw [decodeQueryClean, if_neg hne]

theorem jsSetProp_fresh (acc : List (List Nat × List Nat)) (k v : List Nat)
    (hp : ¬k = protoKey) (hf : ¬k ∈ acc.map Prod.fst) :
    jsSetProp acc k v = acc ++ [(k, v)] := by
  rw [jsSetProp, if_neg hp, if_neg]
  simp only [List.any_eq_true, beq_iff_eq, not_exists, not_and]
  intro p hmem he
  exact hf (he ▸ List.mem_map_of_mem Prod.fst hmem)

theorem jsSetProp_no_proto (acc : List (List Nat × List Nat)) (k v : List Nat)
    (h : acc.all (fun p => !(p.1 == protoKey)) = true) :
    (jsSetProp acc k v).all (fun p => !(p.1 == protoKey)) = true := by
  by_cases hp : k = protoKey
  · rw [jsSetProp, if_pos hp]; exact h
  · rw [jsSetProp, if_neg hp]
    by_cases hmem : acc.any (fun p => p.1 == k) = true
    · rw [if_pos hmem]
      simp only [List.all_eq_true, List.mem_map] at h ⊢
      rintro p ⟨p0, hp0, rfl⟩
      split <;> simpa using h p0 hp0
    · rw [if_neg hmem]
      simp only [List.all_append, h, Bool.true_and, List.all_cons, List.all_nil,
        Bool.and_true]
      simpa using hp

theorem foldl_no_proto (o : DecodeOptions) (pairs : List (List Nat))
    (acc : List (List Nat × List Nat))
    (h : acc.all (fun p => !(p.1 == protoKey)) = true) :
    (pairs.foldl (decodePairStep o) acc).all (fun p => !(p.1 == protoKey)) = true := by
  induction pairs generalizing acc with
  | nil => exact h
  | cons p ps ih =>
    rw [List.foldl_cons]
    exact ih _ (jsSetProp_no_proto _ _ _ h)

/-- No object returned by `decodeQuery` ever has an own entry whose key is
__proto__: the assignment for such a key is absorbed by the prototype
setter. -/
theorem decodeQuery_no_proto (q : List Nat) (o : DecodeOptions) :
    (decodeQuery q o).all (fun p => !(p.1 == protoKey)) = true := by
  rw [decodeQuery, decodeQueryClean]
  split <;> (split <;> first | rfl | exact foldl_no_proto o _ [] rfl)

/-- C10: a pair whose key decodes to __proto__ is silently dropped by
`decodeQuery`; in particular decoding `__proto__=v` yields a map with no
entry for that key, and the concrete query `__proto__=x` decodes to the
empty map. -/
theorem claim_C10 :
    (∀ (v : List Nat) (o : DecodeOptions),
      (decodeQuery (protoKey ++ 61 :: v) o).all (fun p => !(p.1 == protoKey)) = true) ∧
    decodeQuery (utf16 "__proto__=x") defDec = [] :=
  ⟨fun v o => decodeQuery_no_proto (protoKey ++ 61 :: v) o, by decide⟩

/-- C6 counterexample: the pair a=b=c decodes to key a with value b; the
text after the second = is dropped, not kept as part of the value. -/
theorem claim_C6_counterexample :
    decodeQuery (utf16 "a=b=c") defDec = [(utf16 "a", utf16 "b")] ∧
    ¬decodeQuery (utf16 "a=b=c") defDec = [(utf16 "a", utf16 "b=c")] := by
  decide

/-- C6 as amended: `decodeQuery` strips one leading ?, maps empty or
solely-? input to the empty map, splits on every &, and splits each pair on
every = keeping only the first two fields, so the pair a=b=c yields key a
with value b (the text after the second = is dropped); a pair with no =
yields the empty-string value.  Stated for pairs built from characters that
are not %, &, =, ? and a key that is not __proto__. -/
theorem claim_C6 (k v w : List Nat)
    (hk : ∀ c ∈ k, ¬c = 37 ∧ ¬c = 38 ∧ ¬c = 61 ∧ ¬c = 63)
    (hv : ∀ c ∈ v, ¬c = 37 ∧ ¬c = 38 ∧ ¬c = 61 ∧ ¬c = 63)
    (hw : ∀ c ∈ w, ¬c = 37 ∧ ¬c = 38 ∧ ¬c = 61 ∧ ¬c = 63)
    (hkp : ¬k = protoKey) :
    (∀ o, decodeQuery [] o = [] ∧ decodeQuery [63] o = []) ∧
    decodeQuery (63 :: (k ++ 61 :: v)) defDec = decodeQuery (k ++ 61 :: v) defDec ∧
    decodeQuery (k ++ 61 :: (v ++ 61 :: w)) defDec = [(k, v)] ∧
    (¬k = [] → decodeQuery k defDec = [(k, [])]) ∧
    decodeQuery (utf16 "key1&key2=value2") defDec =
      [(utf16 "key1", []), (utf16 "key2", utf16 "value2")] := by
  have h63 : ∀ (b : List Nat), ¬(k ++ 61 :: b).head? = some 63 := by
    intro b
    rcases k with _ | ⟨c, k1⟩
    · simp
    · have := (hk c (by simp)).2.2.2
      simp [this]
  refine ⟨?_, ?_, ?_, ?_, by decide⟩
  · intro o
    constructor <;> rfl
  · rw [decodeQuery_strip _ _ (by simp), decodeQuery_eq_fold _ _ (h63 v) (by simp)]
  · rw [decodeQuery_eq_fold _ _ (h63 (v ++ 61 :: w)) (by simp)]
    rw [jsSplit_nosep 38 _ ?h38]
    case h38 =>
      intro c hc
      simp only [List.mem_append, List.mem_cons] at hc
      rcases hc with h | h | h | h | h
      · exact (hk c h).2.1
      · omega
      · exact (hv c h).2.1
      · omega
      · exact (hw c h).2.1
    rw [List.foldl_cons, List.foldl_nil, decodePairStep,
      jsSplit_left 61 k _ (fun c hc => (hk c hc).2.2.1),
      jsSplit_left 61 v _ (fun c hc => (hv c hc).2.2.1),
      jsSplit_nosep 61 w (fun c hc => (hw c hc).2.2.1)]
    simp only [List.headD_cons, List.drop_succ_cons, List.drop_zero]
    rw [decodeCore_nopct k (fun c hc => (hk c hc).1),
      decodeCore_nopct v (fun c hc => (hv c hc).1),
      jsSetProp_fresh [] k v hkp (by simp)]
    rfl
  · intro hne
    have h63k : ¬k.head? = some 63 := by
      rcases k with _ | ⟨c, k1⟩
      · simp
      · have := (hk c (by simp)).2.2.2
        simp [this]
    rw [decodeQuery_eq_fold _ _ h63k hne,
      jsSplit_nosep 38 _ (fun c hc => (hk c hc).2.1),
      List.foldl_cons, List.foldl_nil, decodePairStep,
      jsSplit_nosep 61 k (fun c hc => (hk c hc).2.2.1)]
    simp only [List.headD_cons, List.drop_succ_cons, List.drop_zero, List.headD_nil]
    rw [decodeCore_nopct k (fun c hc => (hk c hc).1),
      decodeCore_nopct [] (by simp),
      jsSetProp_fresh [] k [] hkp (by simp)]
    rfl

/-- Witness for C6 at the pair a=b=c. -/
theorem claim_C6_witness :
    (∀ o, decodeQuery [] o = [] ∧ decodeQuery [63] o = []) ∧
    decodeQuery (63 :: (utf16 "a" ++ 61 :: utf16 "b")) defDec =
      decodeQuery (utf16 "a" ++ 61 :: utf16 "b") defDec ∧
    decodeQuery (utf16 "a" ++ 61 :: (utf16 "b" ++ 61 :: utf16 "c")) defDec =
      [(utf16 "a", utf16 "b")] ∧
    (¬utf16 "a" = [] → decodeQuery (utf16 "a") defDec = [(utf16 "a", [])]) ∧
    decodeQuery (utf16 "key1&key2=value2") defDec =
      [(utf16 "key1", []), (utf16 "key2", utf16 "value2")] :=
  claim_C6 (utf16 "a") (utf16 "b") (utf16 "c")
    (by decide) (by decide) (by decide) (by decide)

/-- Relation between an entry of the map given to `encodeQuery` and the
encoded piece it contributes to the query string. -/
def PieceRel (p : List Nat × List Nat) (piece : List Nat) : Prop :=
  ∃ ek ev, piece = ek ++ 61 :: ev ∧
    (∀ c ∈ ek, encOutChar c = true) ∧ (∀ c ∈ ev, encOutChar c = true) ∧
    decodeCore ek defDec = p.1 ∧ decodeCore ev defDec = p.2

theorem encodeQuery_pieces (m : List (List Nat × List Nat))
    (hwf : ∀ p ∈ m, wfString p.1 = true ∧ wfString p.2 = true) :
    ∃ pieces,
      (m.map (fun p => (p.1, JsValue.str p.2))).mapM (encodePair defEnc) =
        some pieces ∧
      List.Forall₂ PieceRel m pieces := by
  induction m with
  | nil => exact ⟨[], rfl, List.Forall₂.nil⟩
  | cons p m ih =>
    obtain ⟨pieces, hps, hrel⟩ := ih (fun x hx => hwf x (by simp [hx]))
    obtain ⟨ek, hek, hdk, _, hok⟩ := encode_decode_roundtrip p.1 (hwf p (by simp)).1
    obtain ⟨ev, hev, hdv, _, hov⟩ := encode_decode_roundtrip p.2 (hwf p (by simp)).2
    refine ⟨(ek ++ 61 :: ev) :: pieces, ?_,
      List.Forall₂.cons ⟨ek, ev, rfl, hok, hov, hdk, hdv⟩ hrel⟩
    simp only [List.map_cons, List.mapM_cons, hps, encodePair, jsToString, hek,
      hev, Option.bind_eq_bind, Option.some_bind, Option.map_some]
    rfl

theorem pieces_no_amp {m : List (List Nat × List Nat)} {pieces : List (List Nat)}
    (rel : List.Forall₂ PieceRel m pieces) :
    ∀ piece ∈ pieces, ∀ c ∈ piece, ¬c = 38 := by
  induction rel with
  | nil => simp
  | cons hR hrel ih =>
    obtain ⟨ek, ev, rfl, hok, hov, _, _⟩ := hR
    intro piece hp c hc
    rcases List.mem_cons.mp hp with h | h
    · subst h
      simp only [List.mem_append, List.mem_cons] at hc
      rcases hc with h | h | h
      · exact (encOutChar_facts (hok c h)).1
      · omega
      · exact (encOutChar_facts (hov c h)).1
    · exact ih piece h c hc

theorem decode_fold {m : List (List Nat × List Nat)} {pieces : List (List Nat)}
    (rel : List.Forall₂ PieceRel m pieces) :
    ∀ acc : List (List Nat × List Nat),
      (∀ p ∈ m, ¬p.1 = protoKey) →
      (acc.map Prod.fst ++ m.map Prod.fst).Nodup →
      pieces.foldl (decodePairStep defDec) acc = acc ++ m := by
  induction rel with
  | nil => intro acc _ _; simp
  | @cons a b la lb hR hrel ih =>
    intro acc hproto hnodup
    obtain ⟨ek, ev, rfl, hok, hov, hdk, hdv⟩ := hR
    rw [List.foldl_cons, decodePairStep,
      jsSplit_left 61 ek _ (fun c hc => (encOutChar_facts (hok c hc)).2.1),
      jsSplit_nosep 61 ev (fun c hc => (encOutChar_facts (hov c hc)).2.1)]
    simp only [List.headD_cons, List.drop_succ_cons, List.drop_zero]
    rw [hdk, hdv]
    have hfresh : ¬a.1 ∈ acc.map Prod.fst := by
      intro hmem
      rw [List.nodup_append] at hnodup
      exact hnodup.2.2 hmem (by simp)
    rw [jsSetProp_fresh acc a.1 a.2 (hproto a (by simp)) hfresh]
    have := ih (acc ++ [(a.1, a.2)]) (fun p hp => hproto p (by simp [hp])) ?nodup
    case nodup =>
      simp only [List.map_append, List.map_cons, List.map_nil, List.append_assoc,
        List.singleton_append]
      simpa using hnodup
    rw [this, List.append_assoc]
    rfl

theorem joinSep_cons_shape (sep : Nat) (p : List Nat) (ps : List (List Nat)) :
    joinSep sep (p :: ps) =
      p ++ (if ps = [] then [] else sep :: joinSep sep ps) := by
  rcases ps with _ | ⟨p2, ps2⟩ <;> simp [joinSep]

/-- C7 counterexample: a map with the boolean value true round-trips to a
map whose value is the string true, which is a different value, so
`decodeQuery(encodeQuery(m))` differs from `m`. -/
theorem claim_C7_counterexample :
    encodeQuery [(utf16 "a", JsValue.boolean true)] defEnc =
      some (utf16 "a=true") ∧
    (decodeQuery (utf16 "a=true") defDec).map (fun p => (p.1, JsValue.str p.2)) =
      [(utf16 "a", JsValue.str (utf16 "true"))] ∧
    ¬(decodeQuery (utf16 "a=true") defDec).map (fun p => (p.1, JsValue.str p.2)) =
      [(utf16 "a", JsValue.boolean true)] := by
  decide

/-- C7 as amended: the query round trip reproduces the map when all values
are strings, the entries are well-formed text, no key is __proto__ and the
keys are distinct; number and boolean values come back as their string
forms instead (see the counterexample). -/
theorem claim_C7 (m : List (List Nat × List Nat))
    (hwf : ∀ p ∈ m, wfString p.1 = true ∧ wfString p.2 = true)
    (hproto : ∀ p ∈ m, ¬p.1 = protoKey)
    (hnodup : (m.map Prod.fst).Nodup) :
    ∃ q, encodeQuery (m.map (fun p => (p.1, JsValue.str p.2))) defEnc = some q ∧
      decodeQuery q defDec = m := by
  obtain ⟨pieces, hps, hrel⟩ := encodeQuery_pieces m hwf
  refine ⟨joinSep 38 pieces, ?_, ?_⟩
  · rw [encodeQuery, hps]
    rfl
  · cases hrel with
    | nil => rfl
    | @cons a b la lb hR hrel2 =>
      obtain ⟨ek, ev, rfl, hok, hov, hdk, hdv⟩ := hR
      rw [joinSep_cons_shape]
      have hq63 : ¬((ek ++ 61 :: ev) ++
          (if lb = [] then [] else 38 :: joinSep 38 lb)).head? = some 63 := by
        rcases ek with _ | ⟨c, ek1⟩
        · simp
        · have := (encOutChar_facts (hok c (by simp))).2.2.1
          simp [this]
      rw [← joinSep_cons_shape, decodeQuery_eq_fold _ _ ?hh ?hn]
      case hh => rw [joinSep_cons_shape]; exact hq63
      case hn => rw [joinSep_cons_shape]; simp
      rw [jsSplit_joinSep 38 _ (by simp)
        (pieces_no_amp (List.Forall₂.cons ⟨ek, ev, rfl, hok, hov, hdk, hdv⟩ hrel2))]
      have := decode_fold (List.Forall₂.cons ⟨ek, ev, rfl, hok, hov, hdk, hdv⟩ hrel2)
        [] hproto (by simpa using hnodup)
      simpa using this

/-- Witness for C7 at a concrete two-entry string map. -/
theorem claim_C7_witness :
    ∃ q, encodeQuery (([(utf16 "name", utf16 "John Doe"),
        (utf16 "email", utf16 "test@example.com")] :
        List (List Nat × List Nat)).map (fun p => (p.1, JsValue.str p.2)))
      defEnc = some q ∧
    decodeQuery q defDec =
      [(utf16 "name", utf16 "John Doe"), (utf16 "email", utf16 "test@example.com")] :=
  claim_C7 [(utf16 "name", utf16 "John Doe"), (utf16 "email", utf16 "test@example.com")]
    (by decide) (by decide) (by decide)

/-- USVString conversion applied by `new URL` to its argument: surrogate
pairs are kept, unpaired surrogates become U+FFFD. -/
def toScalarUnits : List Nat → List Nat
  | [] => []
  | c :: rest =>
    if 0xD800 ≤ c ∧ c < 0xDC00 then
      match rest with
      | c2 :: rest2 =>
        if 0xDC00 ≤ c2 ∧ c2 < 0xE000 then c :: c2 :: toScalarUnits rest2
        else 0xFFFD :: toScalarUnits (c2 :: rest2)
      | [] => [0xFFFD]
    else if 0xDC00 ≤ c ∧ c < 0xE000 then 0xFFFD :: toScalarUnits rest
    else c :: toScalarUnits rest

/-- Input preprocessing of the WHATWG URL parser: remove leading and
trailing C0 controls and spaces, then remove all tabs and newlines. -/
def urlPreprocess (url : List Nat) : List Nat :=
  ((((toScalarUnits url).dropWhile (fun c => c ≤ 32)).reverse.dropWhile
    (fun c => c ≤ 32)).reverse).filter (fun c => !(c = 9 || c = 10 || c = 13))

/-- ASCII lowercasing of one code unit. -/
def asciiLower (c : Nat) : Nat := if 65 ≤ c ∧ c ≤ 90 then c + 32 else c

/-- Characters allowed in a URL scheme. -/
def isSchemeChar (c : Nat) : Bool :=
  isUriAlpha c || isDigit c || c = 43 || c = 45 || c = 46

/-- Host characters the model accepts (after lowercasing): a restricted
domain on which WHATWG host parsing is the identity. -/
def isHostChar (c : Nat) : Bool :=
  (97 ≤ c && c ≤ 122) || isDigit c || c = 45 || c = 46

/-- Numeric value of a digit string. -/
def digitsNat (ds : List Nat) : Nat := ds.foldl (fun a c => a * 10 + (c - 48)) 0

/-- Whether the port part parses: absent, or all digits with value at most
65535 (larger values make the WHATWG parser fail). -/
def portOk (portRaw : List Nat) : Bool :=
  portRaw = [] || (portRaw.all isDigit && digitsNat portRaw ≤ 65535)

/-- Serialized port suffix of the host: empty when the port is absent or is
the scheme's default (80 for http, 443 for https), otherwise a colon and
the shortest decimal form. -/
def portSuffix (scheme portRaw : List Nat) : List Nat :=
  if portRaw = [] then []
  else if (scheme = utf16 "http" ∧ digitsNat portRaw = 80) ∨
      (scheme = utf16 "https" ∧ digitsNat portRaw = 443) then []
  else 58 :: utf16 (toString (digitsNat portRaw))

/-- Path characters on which WHATWG path serialization is the identity
(visible ASCII minus the path percent-encode set, percent, backslash and
the separators); the model rejects other paths. -/
def pathPlain (c : Nat) : Bool :=
  (33 ≤ c && c ≤ 126) && !(c = 34 || c = 35 || c = 37 || c = 60 || c = 62 ||
    c = 63 || c = 92 || c = 96 || c = 123 || c = 125)

/-- Query characters on which WHATWG query serialization and
application/x-www-form-urlencoded decoding are the identity (visible ASCII
minus the special-scheme query percent-encode set, percent and plus); the
model rejects other queries. -/
def queryPlain (c : Nat) : Bool :=
  (33 ≤ c && c ≤ 126) && !(c = 34 || c = 35 || c = 37 || c = 39 || c = 43 ||
    c = 60 || c = 62)

/-- Name/value split of one application/x-www-form-urlencoded piece: the
name is everything before the first =, the value everything after it. -/
def splitFirstEq (piece : List Nat) : List Nat × List Nat :=
  (piece.takeWhile (fun c => !(c = 61)),
    (piece.dropWhile (fun c => !(c = 61))).drop 1)

/-- The decoded name/value list exposed by `url.searchParams`, per the
application/x-www-form-urlencoded parser: split on &, skip empty pieces,
split each piece on the first = (on the model's plain-query domain,
byte decoding is the identity). -/
def searchParamsOf (q : List Nat) : List (List Nat × List Nat) :=
  ((jsSplit 38 q).filter (fun p => !p.isEmpty)).map splitFirstEq

/-- Code points the fragment percent-encode set leaves unescaped: visible
ASCII minus space, double quote, angle brackets and backtick. -/
def fragSafe (c : Nat) : Bool :=
  (33 ≤ c && c ≤ 126) && !(c = 34 || c = 60 || c = 62 || c = 96)

/-- WHATWG fragment serialization: per code point, safe characters pass,
everything else is UTF-8 percent-encoded (a literal % passes through,
which is what creates the double-encoding hazard `encodeUrl` works
around). -/
def fragmentEncode (s : List Nat) : List Nat :=
  (arrayFromPoints s).flatMap (fun cp => if fragSafe cp then [cp] else pctUtf8 cp)

/-- Query component from the text following the path: present only when
that text starts with a question mark, and ending at the fragment. -/
def queryOf (afterPath : List Nat) : List Nat :=
  if afterPath.head? = some 63 then
    (afterPath.drop 1).takeWhile (fun c => !(c = 35))
  else []

/-- Components of a parsed URL as the code reads them: `protocol` includes
the trailing colon, `host` includes a non-default port, `hash` includes the
leading # or is empty. -/
structure UrlRecord where
  protocol : List Nat
  host : List Nat
  pathname : List Nat
  searchParams : List (List Nat × List Nat)
  hash : List Nat
deriving DecidableEq

/-- Modelled from the WHATWG URL Standard, the parser behind `new URL`,
restricted to a domain on which the model provably agrees with the
standard: absolute http/https URLs written as scheme://host[:port]path,
with an ASCII host needing no IDNA or percent processing, no userinfo, no
backslashes, a path without . or .. segments and without characters the
standard would percent-encode, and a query in the same plain form.  Inputs
outside this domain are treated as parse failures; fragments are handled in
full (percent-encoding the fragment percent-encode set and non-ASCII). -/
def urlParseCore (s : List Nat) : Option UrlRecord :=
  let scheme := (s.takeWhile isSchemeChar).map asciiLower
  match s.dropWhile isSchemeChar with
  | 58 :: 47 :: 47 :: rest2 =>
    let auth := rest2.takeWhile (fun c => !(c = 47 || c = 63 || c = 35))
    let afterAuth := rest2.dropWhile (fun c => !(c = 47 || c = 63 || c = 35))
    let host := (auth.takeWhile (fun c => !(c = 58))).map asciiLower
    let portRaw := (auth.dropWhile (fun c => !(c = 58))).drop 1
    let path := afterAuth.takeWhile (fun c => !(c = 63 || c = 35))
    let afterPath := afterAuth.dropWhile (fun c => !(c = 63 || c = 35))
    let query := queryOf afterPath
    let frag := (afterPath.dropWhile (fun c => !(c = 35))).drop 1
    if (scheme = utf16 "http" ∨ scheme = utf16 "https") ∧ ¬92 ∈ s ∧
        ¬64 ∈ auth ∧ ¬host = [] ∧ host.all isHostChar = true ∧
        portOk portRaw = true ∧ path.all pathPlain = true ∧
        (jsSplit 47 path).all (fun seg => !(seg == [46] || seg == [46, 46])) = true ∧
        query.all queryPlain = true ∧
        frag.all (fun c => c < 0x10000) = true then
      some ⟨scheme ++ [58], host ++ portSuffix scheme portRaw,
        if path = [] then [47] else path,
        searchParamsOf query,
        if frag = [] then [] else 35 :: fragmentEncode frag⟩
    else none
  | _ => none

/-- The URL constructor: USVString conversion and preprocessing, then the
(restricted) parser. -/
def urlParse (url : List Nat) : Option UrlRecord :=
  urlParseCore (urlPreprocess url)

/-- The `encodeUrl` function of src/index.ts (lines 171-206) over a string
argument: on parse success rebuild protocol//host pathname, re-encode the
decoded query parameters, decode-then-encode the fragment (falling back to
encoding the raw fragment when decoding fails); on parse failure encode the
whole string.  `none` models a URIError escaping the outer catch via
`encode(url)`. -/
def encodeUrl (url : List Nat) : Option (List Nat) :=
  match urlParse url with
  | some u =>
    match u.searchParams.mapM (fun (kv : List Nat × List Nat) => do
        let ek ← encodeCore kv.1 defEnc
        let ev ← encodeCore kv.2 defEnc
        pure (ek ++ 61 :: ev)) with
    | some newParams =>
      let base := u.protocol ++ [47, 47] ++ u.host ++ u.pathname
      let query := if ¬newParams = [] then 63 :: joinSep 38 newParams else []
      match
        (if ¬u.hash = [] then
          match decodeAux (u.hash.drop 1) with
          | some dh => (encodeCore dh defEnc).map (fun e => 35 :: e)
          | none => (encodeCore (u.hash.drop 1) defEnc).map (fun e => 35 :: e)
        else some []) with
      | some hash => some (base ++ query ++ hash)
      | none => encodeCore url defEnc
    | none => encodeCore url defEnc
  | none => encodeCore url defEnc

/-- The `encodeUrl` function including its typeof guard (lines 172-174). -/
def encodeUrlJS (v : JsValue) : Except JsErr (List Nat) :=
  match v with
  | JsValue.str s =>
    match encodeUrl s with
    | some r => Except.ok r
    | none => Except.error JsErr.uriError
  | _ => Except.error JsErr.typeError

/-- Whether the first list is a prefix of the second. -/
def hasPrefixL : List Nat → List Nat → Bool
  | [], _ => true
  | _ :: _, [] => false
  | a :: as, b :: bs => a = b && hasPrefixL as bs

/-- Whether the first list occurs as a contiguous run inside the second. -/
def hasSub (pat : List Nat) : List Nat → Bool
  | [] => hasPrefixL pat []
  | c :: rest => hasPrefixL pat (c :: rest) || hasSub pat rest

/-- C8 counterexample: `https://example.com` parses, has no query and no
fragment, yet `encodeUrl` returns `https://example.com/` — the parsed
pathname is the normalized `/`, not the input bytes. -/
theorem claim_C8_counterexample :
    encodeUrl (utf16 "https://example.com") = some (utf16 "https://example.com/") ∧
    ¬encodeUrl (utf16 "https://example.com") = some (utf16 "https://example.com") := by
  decide

/-- C8 as amended: for a URL that parses with no query and no fragment, the
output is protocol//host pathname taken from the parsed (normalized) URL
components — never re-encoded by this library, but equal to the input only
when the input is already in normalized form, as in the example with an
explicit non-default port. -/
theorem claim_C8 :
    (∀ (u : List Nat) (r : UrlRecord), urlParse u = some r →
      r.searchParams = [] → r.hash = [] →
      encodeUrl u = some (r.protocol ++ [47, 47] ++ r.host ++ r.pathname)) ∧
    encodeUrl (utf16 "https://example.com:8080/path/to/resource") =
      some (utf16 "https://example.com:8080/path/to/resource") := by
  constructor
  · intro u r h hq hh
    rw [encodeUrl, h]
    simp [hq, hh, List.mapM.loop]
  · decide

/-- C9: the fragment is first percent-decoded and the decoded text
re-encoded, so the example URL with a space in its fragment yields
#section%20name and not the double-encoded %2520 form; when the raw
fragment does not decode (here a truncated UTF-8 escape), it is encoded
as-is. -/
theorem claim_C9 :
    encodeUrl (utf16 "https://example.com/page#section name") =
      some (utf16 "https://example.com/page#section%20name") ∧
    hasSub (utf16 "#section%20name")
      (utf16 "https://example.com/page#section%20name") = true ∧
    hasSub (utf16 "%2520") (utf16 "https://example.com/page#section%20name") = false ∧
    decodeAux (utf16 "section%20name") = some (utf16 "section name") ∧
    decodeAux (utf16 "%E0%A4%A") = none ∧
    encodeUrl (utf16 "https://example.com/page#%E0%A4%A") =
      some (utf16 "https://example.com/page#%25E0%25A4%25A") := by
  decide

theorem wfString_of_ascii (s : List Nat) (h : ∀ c ∈ s, c < 0xD800) :
    wfString s = true := by
  induction s with
  | nil => rfl
  | cons c rest ih =>
    rw [wfString_cons_bmp (Or.inl (h c (by simp)))]
    exact ih (fun x hx => h x (by simp [hx]))

theorem encodeURIComponentAux_ok (s : List Nat) (h : wfString s = true) :
    ∃ e, encodeURIComponentAux s = some e := by
  obtain ⟨e, he, _, _⟩ := roundtripAux s h
  exact ⟨e, he⟩

theorem points_valid (s : List Nat) (h : wfString s = true) :
    ∀ cp ∈ arrayFromPoints s, cp ≤ 0x10FFFF ∧ (cp < 0xD800 ∨ 0xDFFF < cp) := by
  induction s using wfString.induct with
  | case1 => simp [arrayFromPoints]
  | case2 c rest hbmp ih =>
    rw [wfString_cons_bmp hbmp] at h
    have e : arrayFromPoints (c :: rest) = c :: arrayFromPoints rest := by
      have hc : ¬(0xD800 ≤ c ∧ c < 0xDC00) := by omega
      rcases rest with _ | ⟨c2, r⟩
      · simp [arrayFromPoints, hc]
      · simp [arrayFromPoints, hc]
    rw [e]
    intro cp hcp
    rcases List.mem_cons.mp hcp with h1 | h1
    · subst h1; omega
    · exact ih h cp h1
  | case3 c hn1 hlead c2 rest2 htrail ih =>
    rw [wfString_pair hn1 hlead, if_pos htrail] at h
    have e : arrayFromPoints (c :: c2 :: rest2) =
        (0x10000 + (c - 0xD800) * 0x400 + (c2 - 0xDC00)) :: arrayFromPoints rest2 := by
      simp [arrayFromPoints, (by omega : 0xD800 ≤ c ∧ c < 0xDC00), htrail]
    rw [e]
    intro cp hcp
    rcases List.mem_cons.mp hcp with h1 | h1
    · omega
    · exact ih h cp h1
  | case4 c hn1 hlead c2 rest2 hnt =>
    rw [wfString_pair hn1 hlead, if_neg hnt] at h
    exact absurd h (by simp)
  | case5 c hn1 hlead =>
    rw [wfString_single hn1 hlead] at h
    exact absurd h (by simp)
  | case6 c rest hn1 hn2 =>
    rw [wfString_bad hn1 hn2] at h
    exact absurd h (by simp)

set_option maxRecDepth 4000 in
theorem charUnits_wf (v : Nat) (h1 : v ≤ 0x10FFFF) (h2 : v < 0xD800 ∨ 0xDFFF < v) :
    wfString (charUnits v) = true := by
  by_cases hb : v < 0x10000
  · rw [charUnits, if_pos hb, wfString_cons_bmp (by omega)]
    rfl
  · rw [charUnits, if_neg hb,
      wfString_pair (by omega) (by constructor <;> omega), if_pos (by omega)]
    rfl

theorem strictEncodeChar_ok (A : List (List Nat)) (cp : Nat)
    (h1 : cp ≤ 0x10FFFF) (h2 : cp < 0xD800 ∨ 0xDFFF < cp) :
    ∃ x, strictEncodeChar A cp = some x := by
  rw [strictEncodeChar]
  split
  · exact ⟨charUnits cp, rfl⟩
  · have hwf : wfString (charUnits cp) = true := charUnits_wf cp h1 h2
    obtain ⟨e, he⟩ := encodeURIComponentAux_ok _ hwf
    exact ⟨rfc3986Extra e, by rw [he]; rfl⟩

theorem mapM_ok {α β : Type} (f : α → Option β) (l : List α)
    (h : ∀ x ∈ l, ∃ y, f x = some y) : ∃ ys, l.mapM f = some ys := by
  induction l with
  | nil => exact ⟨[], rfl⟩
  | cons a l ih =>
    obtain ⟨y, hy⟩ := h a (by simp)
    obtain ⟨ys, hys⟩ := ih (fun x hx => h x (by simp [hx]))
    refine ⟨y :: ys, ?_⟩
    rw [List.mapM_cons, hy, hys]
    rfl

theorem encodeCore_ok (s : List Nat) (o : EncodeOptions) (h : wfString s = true) :
    ∃ e, encodeCore s o = some e := by
  obtain ⟨e0, he0⟩ := encodeURIComponentAux_ok s h
  rw [encodeCore, he0]
  cases hst : o.strict with
  | false =>
    exact ⟨if o.plusForSpace then replacePct20Plus (rfc3986Extra e0)
      else rfc3986Extra e0, rfl⟩
  | true =>
    obtain ⟨ys, hys⟩ := mapM_ok (strictEncodeChar o.allowedChars) (arrayFromPoints s)
      (fun cp hcp => strictEncodeChar_ok o.allowedChars cp
        (points_valid s h cp hcp).1 (points_valid s h cp hcp).2)
    refine ⟨if o.plusForSpace then replacePct20Plus ys.flatten else ys.flatten, ?_⟩
    simp only [Option.some_bind, hys, Option.map_some, Option.bind_eq_bind]
    rfl

theorem jsSplit_ne_nil (sep : Nat) (q : List Nat) : ¬jsSplit sep q = [] := by
  induction q with
  | nil => simp [jsSplit]
  | cons c rest ih =>
    rw [jsSplit]
    split
    · simp
    · rcases jsSplit sep rest with _ | ⟨hd, tl⟩ <;> simp

theorem jsSplit_chars (sep : Nat) (q : List Nat) :
    ∀ p ∈ jsSplit sep q, ∀ c ∈ p, c ∈ q := by
  induction q with
  | nil =>
    intro p hp
    simp [jsSplit] at hp
    subst hp
    simp
  | cons a rest ih =>
    intro p hp c hc
    rw [jsSplit] at hp
    by_cases ha : a = sep
    · rw [if_pos ha] at hp
      rcases List.mem_cons.mp hp with h | h
      · subst h; simp at hc
      · exact List.mem_cons_of_mem a (ih p h c hc)
    · rw [if_neg ha] at hp
      rcases hsp : jsSplit sep rest with _ | ⟨hd, tl⟩
      · exact absurd hsp (jsSplit_ne_nil sep rest)
      · rw [hsp] at hp
        rcases List.mem_cons.mp hp with h | h
        · subst h
          rcases List.mem_cons.mp hc with h1 | h1
          · simp [h1]
          · exact List.mem_cons_of_mem a (ih hd (by rw [hsp]; simp) c h1)
        · exact List.mem_cons_of_mem a (ih p (by rw [hsp]; simp [h]) c hc)

theorem searchParamsOf_chars (q : List Nat) :
    ∀ kv ∈ searchParamsOf q, (∀ c ∈ kv.1, c ∈ q) ∧ (∀ c ∈ kv.2, c ∈ q) := by
  intro kv hkv
  rw [searchParamsOf] at hkv
  obtain ⟨piece, hpmem, hpe⟩ := List.mem_map.mp hkv
  have hpq : piece ∈ jsSplit 38 q := List.mem_of_mem_filter hpmem
  have hsub : ∀ c ∈ piece, c ∈ q := jsSplit_chars 38 q piece hpq
  constructor
  · intro c hc
    rw [← hpe] at hc
    exact hsub c ((List.takeWhile_sublist _).subset hc)
  · intro c hc
    rw [← hpe] at hc
    exact hsub c ((List.dropWhile_sublist _).subset (List.drop_subset 1 _ hc))

theorem queryPlain_lt {c : Nat} (h : queryPlain c = true) : c < 0x80 := by
  simp [queryPlain] at h
  omega

theorem afp_cons_nolead {c : Nat} (hc : ¬(0xD800 ≤ c ∧ c < 0xDC00))
    (rest : List Nat) : arrayFromPoints (c :: rest) = c :: arrayFromPoints rest := by
  rcases rest with _ | ⟨c2, r⟩ <;> simp [arrayFromPoints, hc]

theorem arrayFromPoints_bound (s : List Nat) (h : ∀ c ∈ s, c < 0x10000) :
    ∀ cp ∈ arrayFromPoints s, cp ≤ 0x10FFFF := by
  induction s using arrayFromPoints.induct with
  | case1 => simp [arrayFromPoints]
  | case2 c hlead c2 rest2 htrail ih =>
    intro cp hcp
    have e : arrayFromPoints (c :: c2 :: rest2) =
        (0x10000 + (c - 0xD800) * 0x400 + (c2 - 0xDC00)) :: arrayFromPoints rest2 := by
      simp [arrayFromPoints, hlead, htrail]
    rw [e] at hcp
    rcases List.mem_cons.mp hcp with h1 | h1
    · omega
    · exact ih (fun x hx => h x (by simp [hx])) cp h1
  | case3 c hlead c2 rest2 hnt ih =>
    intro cp hcp
    have e : arrayFromPoints (c :: c2 :: rest2) = c :: arrayFromPoints (c2 :: rest2) := by
      simp [arrayFromPoints, hlead, hnt]
    rw [e] at hcp
    rcases List.mem_cons.mp hcp with h1 | h1
    · have := h c (by simp)
      omega
    · exact ih (fun x hx => h x (by simp at hx ⊢; tauto)) cp h1
  | case4 c hlead =>
    intro cp hcp
    have e : arrayFromPoints [c] = [c] := by simp [arrayFromPoints, hlead]
    rw [e] at hcp
    simp at hcp
    have := h c (by simp)
    omega
  | case5 c rest hnl ih =>
    intro cp hcp
    rw [afp_cons_nolead hnl] at hcp
    rcases List.mem_cons.mp hcp with h1 | h1
    · have := h c (by simp)
      omega
    · exact ih (fun x hx => h x (by simp [hx])) cp h1

theorem fragmentEncode_ascii (s : List Nat) (h : ∀ c ∈ s, c < 0x10000) :
    ∀ x ∈ fragmentEncode s, x < 0x80 := by
  intro x hx
  rw [fragmentEncode] at hx
  simp only [List.mem_flatMap] at hx
  obtain ⟨cp, hcp, hx2⟩ := hx
  have hb := arrayFromPoints_bound s h cp hcp
  by_cases hs : fragSafe cp = true
  · rw [if_pos hs] at hx2
    simp at hx2
    simp [fragSafe] at hs
    omega
  · rw [if_neg hs] at hx2
    have := pctUtf8_chars cp hb x hx2
    omega

theorem charUnits_append_wf (v : Nat) (h1 : v ≤ 0x10FFFF)
    (h2 : v < 0xD800 ∨ 0xDFFF < v) (d : List Nat) (hd : wfString d = true) :
    wfString (charUnits v ++ d) = true := by
  by_cases hb : v < 0x10000
  · rw [charUnits, if_pos hb]
    simp only [List.cons_append, List.nil_append]
    rw [wfString_cons_bmp (by omega)]
    exact hd
  · rw [charUnits, if_neg hb]
    simp only [List.cons_append, List.nil_append]
    rw [wfString_pair (by omega) (by constructor <;> omega), if_pos (by omega)]
    exact hd

theorem utf8Go_wf (need acc minv : Nat) (l : List (Sum Nat Nat)) :
    (∀ c, Sum.inl c ∈ l → c < 0xD800) →
    ∀ d, utf8Go need acc minv l = some d → wfString d = true := by
  induction need, acc, minv, l using utf8Go.induct with
  | case1 a m =>
    intro _ d hd
    simp [utf8Go] at hd
    subst hd
    rfl
  | case2 n a m =>
    intro _ d hd
    simp [utf8Go] at hd
  | case3 a m c rest ih =>
    intro h d hd
    simp only [utf8Go] at hd
    rcases hr : utf8Go 0 0 0 rest with _ | d1
    · rw [hr] at hd; simp at hd
    · rw [hr] at hd
      simp at hd
      subst hd
      rw [wfString_cons_bmp (Or.inl (h c (by simp)))]
      exact ih (fun x hx => h x (by simp [hx])) d1 hr
  | case4 n a m c rest =>
    intro _ d hd
    simp [utf8Go] at hd
  | case5 a m b rest h1 ih =>
    intro h d hd
    simp only [utf8Go] at hd
    rw [if_pos h1] at hd
    rcases hr : utf8Go 0 0 0 rest with _ | d1
    · rw [hr] at hd; simp at hd
    · rw [hr] at hd
      simp at hd
      subst hd
      rw [wfString_cons_bmp (Or.inl (by omega))]
      exact ih (fun x hx => h x (by simp [hx])) d1 hr
  | case6 a m b rest h1 h2 =>
    intro _ d hd
    simp only [utf8Go] at hd
    rw [if_neg h1, if_pos h2] at hd
    exact absurd hd (by simp)
  | case7 a m b rest h1 h2 h3 ih =>
    intro h d hd
    simp only [utf8Go] at hd
    rw [if_neg h1, if_neg h2, if_pos h3] at hd
    exact ih (fun x hx => h x (by simp [hx])) d hd
  | case8 a m b rest h1 h2 h3 h4 ih =>
    intro h d hd
    simp only [utf8Go] at hd
    rw [if_neg h1, if_neg h2, if_neg h3, if_pos h4] at hd
    exact ih (fun x hx => h x (by simp [hx])) d hd
  | case9 a m b rest h1 h2 h3 h4 h5 ih =>
    intro h d hd
    simp only [utf8Go] at hd
    rw [if_neg h1, if_neg h2, if_neg h3, if_neg h4, if_pos h5] at hd
    exact ih (fun x hx => h x (by simp [hx])) d hd
  | case10 a m b rest h1 h2 h3 h4 h5 =>
    intro _ d hd
    simp only [utf8Go] at hd
    rw [if_neg h1, if_neg h2, if_neg h3, if_neg h4, if_neg h5] at hd
    exact absurd hd (by simp)
  | case11 a m b rest h1 h2 ih =>
    intro h d hd
    simp only [utf8Go] at hd
    rw [if_pos h1, if_pos h2] at hd
    rcases hr : utf8Go 0 0 0 rest with _ | d1
    · rw [hr] at hd; simp at hd
    · rw [hr] at hd
      simp at hd
      subst hd
      exact charUnits_append_wf _ h2.2.1 h2.2.2 d1
        (ih (fun x hx => h x (by simp [hx])) d1 hr)
  | case12 a m b rest h1 h2 =>
    intro _ d hd
    simp only [utf8Go] at hd
    rw [if_pos h1, if_neg h2] at hd
    exact absurd hd (by simp)
  | case13 a m b rest h1 need1 ih =>
    intro h d hd
    simp only [utf8Go] at hd
    rw [if_pos h1] at hd
    exact ih (fun x hx => h x (by simp [hx])) d hd
  | case14 n a m b rest h1 =>
    intro _ d hd
    simp only [utf8Go] at hd
    rw [if_neg h1] at hd
    exact absurd hd (by simp)

theorem unpct_inl_mem (s : List Nat) :
    ∀ l, unpct s = some l → ∀ c, Sum.inl c ∈ l → c ∈ s := by
  induction s using unpct.induct with
  | case1 =>
    intro l hl c hc
    simp [unpct] at hl
    subst hl
    simp at hc
  | case2 a b rest1 v hhex ih =>
    intro l hl c hc
    simp only [unpct, hhex, if_pos] at hl
    rcases hr : unpct rest1 with _ | l1
    · rw [hr] at hl; simp at hl
    · rw [hr] at hl
      simp at hl
      subst hl
      rcases List.mem_cons.mp hc with h | h
      · simp at h
      · have := ih l1 hr c h
        simp [this]
  | case3 a b rest1 hhex =>
    intro l hl
    simp [unpct, hhex] at hl
  | case4 rest2 hshape =>
    intro l hl
    rcases rest2 with _ | ⟨x, _ | ⟨y, r⟩⟩
    · simp [unpct] at hl
    · simp [unpct] at hl
    · exact absurd rfl (fun he => hshape x y r he)
  | case5 c2 rest2 hne ih =>
    intro l hl c hc
    rw [unpct_lit c2 hne] at hl
    rcases hr : unpct rest2 with _ | l1
    · rw [hr] at hl; simp at hl
    · rw [hr] at hl
      simp at hl
      subst hl
      rcases List.mem_cons.mp hc with h | h
      · simp at h
        simp [h]
      · exact List.mem_cons_of_mem c2 (ih l1 hr c h)

theorem decodeAux_wf (s : List Nat) (h : ∀ c ∈ s, c < 0xD800) (d : List Nat)
    (hd : decodeAux s = some d) : wfString d = true := by
  rw [decodeAux] at hd
  rcases hu : unpct s with _ | l
  · rw [hu] at hd
    exact absurd hd (by simp)
  · rw [hu] at hd
    simp at hd
    exact utf8Go_wf 0 0 0 l
      (fun c hc => h c (unpct_inl_mem s l hu c hc)) d hd

theorem urlParse_fields (u : List Nat) (r : UrlRecord) (h : urlParse u = some r) :
    (∀ kv ∈ r.searchParams, (∀ c ∈ kv.1, c < 0x80) ∧ (∀ c ∈ kv.2, c < 0x80)) ∧
    (∀ c ∈ r.hash, c < 0x80) := by
  rw [urlParse] at h
  simp only [urlParseCore] at h
  split at h
  · split at h
    case isTrue hcond =>
      injection h with h
      subst h
      dsimp only
      obtain ⟨_, _, _, _, _, _, _, _, hquery, hfrag⟩ := hcond
      have hq := List.all_eq_true.mp hquery
      have hf := List.all_eq_true.mp hfrag
      constructor
      · intro kv hkv
        have hchars := searchParamsOf_chars _ kv hkv
        exact ⟨fun c hc => queryPlain_lt (hq c (hchars.1 c hc)),
          fun c hc => queryPlain_lt (hq c (hchars.2 c hc))⟩
      · intro c hc
        split at hc
        · simp at hc
        · rcases List.mem_cons.mp hc with h1 | h1
          · omega
          · have := fragmentEncode_ascii _
              (fun x hx => by simpa using hf x hx) c h1
            omega
    case isFalse => exact absurd h (by simp)
  · exact absurd h (by simp)

theorem encodeUrl_ok (url : List Nat) (h : wfString url = true) :
    ∃ res, encodeUrl url = some res := by
  rcases hp : urlParse url with _ | u
  · obtain ⟨e, he⟩ := encodeCore_ok url defEnc h
    refine ⟨e, ?_⟩
    rw [encodeUrl, hp]
    exact he
  · obtain ⟨hsearch, hhash⟩ := urlParse_fields url u hp
    obtain ⟨np, hnp⟩ := mapM_ok
      (fun (kv : List Nat × List Nat) => do
        let ek ← encodeCore kv.1 defEnc
        let ev ← encodeCore kv.2 defEnc
        pure (ek ++ 61 :: ev))
      u.searchParams (fun kv hkv => by
        obtain ⟨ek, hek⟩ := encodeCore_ok kv.1 defEnc
          (wfString_of_ascii _ (fun c hc => by have := (hsearch kv hkv).1 c hc; omega))
        obtain ⟨ev, hev⟩ := encodeCore_ok kv.2 defEnc
          (wfString_of_ascii _ (fun c hc => by have := (hsearch kv hkv).2 c hc; omega))
        exact ⟨ek ++ 61 :: ev, by
          simp only [hek, hev, Option.bind_eq_bind, Option.some_bind]
          rfl⟩)
    have hhash2 : ∃ hs,
        (if ¬u.hash = [] then
          match decodeAux (u.hash.drop 1) with
          | some dh => (encodeCore dh defEnc).map (fun e => 35 :: e)
          | none => (encodeCore (u.hash.drop 1) defEnc).map (fun e => 35 :: e)
        else some []) = some hs := by
      by_cases hh : u.hash = []
      · refine ⟨[], ?_⟩
        rw [if_neg (by simp [hh])]
      · have hdrop : ∀ c ∈ u.hash.drop 1, c < 0xD800 := fun c hc => by
          have := hhash c (List.drop_subset 1 u.hash hc)
          omega
        rcases hda : decodeAux (u.hash.drop 1) with _ | dh
        · obtain ⟨e, he⟩ := encodeCore_ok (u.hash.drop 1) defEnc
            (wfString_of_ascii _ hdrop)
          refine ⟨35 :: e, ?_⟩
          rw [if_pos hh, he]
          rfl
        · obtain ⟨e, he⟩ := encodeCore_ok dh defEnc
            (decodeAux_wf _ hdrop dh hda)
          refine ⟨35 :: e, ?_⟩
          rw [if_pos hh]
          show Option.map (fun x => 35 :: x) (encodeCore dh defEnc) = some (35 :: e)
          rw [he]
          rfl
    obtain ⟨hs, hhs⟩ := hhash2
    refine ⟨(u.protocol ++ [47, 47] ++ u.host ++ u.pathname) ++
      (if ¬np = [] then 63 :: joinSep 38 np else []) ++ hs, ?_⟩
    rw [encodeUrl, hp]
    simp only [hnp, hhs]

/-- Whether a JS value is a string (the typeof check of the library). -/
def isStringV : JsValue → Bool
  | JsValue.str _ => true
  | _ => false

/-- C5 counterexample: the argument [0xD800] is a string (an unpaired
surrogate), yet `encode` raises a URIError from `encodeURIComponent`, so
type errors are not the only exceptions. -/
theorem claim_C5_counterexample :
    isStringV (JsValue.str [0xD800]) = true ∧
    encodeJS (JsValue.str [0xD800]) defEnc = Except.error JsErr.uriError := by
  refine ⟨rfl, ?_⟩
  have h : encodeCore [0xD800] defEnc = none := by decide
  simp [encodeJS, h]

/-- C5 as amended: non-string arguments raise TypeError from all three
functions; `decode` returns without raising on every string; `encode` and
`encodeUrl` return without raising on every well-formed string, but raise
URIError on some strings containing unpaired surrogates (see the
counterexample). -/
theorem claim_C5 :
    (∀ (v : JsValue) (o : EncodeOptions), isStringV v = false →
      encodeJS v o = Except.error JsErr.typeError) ∧
    (∀ (v : JsValue) (o : DecodeOptions), isStringV v = false →
      decodeJS v o = Except.error JsErr.typeError) ∧
    (∀ v : JsValue, isStringV v = false →
      encodeUrlJS v = Except.error JsErr.typeError) ∧
    (∀ (s : List Nat) (o : DecodeOptions),
      ∃ d, decodeJS (JsValue.str s) o = Except.ok d) ∧
    (∀ (s : List Nat) (o : EncodeOptions), wfString s = true →
      ∃ e, encodeJS (JsValue.str s) o = Except.ok e) ∧
    (∀ s : List Nat, wfString s = true →
      ∃ r, encodeUrlJS (JsValue.str s) = Except.ok r) := by
  refine ⟨?_, ?_, ?_, ?_, ?_, ?_⟩
  · intro v o hv
    cases v with
    | str s => simp [isStringV] at hv
    | num n => rfl
    | boolean b => rfl
    | nullV => rfl
    | undefinedV => rfl
  · intro v o hv
    cases v with
    | str s => simp [isStringV] at hv
    | num n => rfl
    | boolean b => rfl
    | nullV => rfl
    | undefinedV => rfl
  · intro v hv
    cases v with
    | str s => simp [isStringV] at hv
    | num n => rfl
    | boolean b => rfl
    | nullV => rfl
    | undefinedV => rfl
  · intro s o
    exact ⟨decodeCore s o, rfl⟩
  · intro s o hs
    obtain ⟨e, he⟩ := encodeCore_ok s o hs
    exact ⟨e, by simp [encodeJS, he]⟩
  · intro s hs
    obtain ⟨r, hr⟩ := encodeUrl_ok s hs
    exact ⟨r, by simp [encodeUrlJS, hr]⟩

end UrlCodec
